import Mathlib

/-!
Shallow embedding of the pyFPA core: the `CustomFloat` representation
(`src/core/float.py`) and the arithmetic kernels
(`src/algorithms/addition.py`, `multiplication.py`, `division.py`,
`elementary.py`).

Conventions of the embedding:
* Python integers are modelled as `Int`.  Stored sign bits, biased
  exponents and precisions are non-negative in every value the kernels
  construct, so those fields are `Nat`; the mantissa field is `Int`
  because `divide_basic` stores `normalized_quotient - (1 << mant_bits)`
  without any range check.
* Python `x >> k` and `x // d` are flooring operations: `Int.fdiv`.
  Python `x << k` is `x * 2^k`.  Python `x & ((1 << m) - 1)` equals
  `x mod 2^m` with a non-negative result, i.e. `Int.emod x (2^m)`.
* `int(math.log2(p))` is the floor base-2 logarithm of the integer `p`
  (exact for every precision the library can handle); it is modelled by
  the fuel-structural `log2floor` below, proved equal to `Nat.log 2`.
* The `while` loop in `add_basic`'s normalization step decreases its
  exponent every iteration and stops at `-bias`, so it runs at most
  `(exp + bias) + 1` times; `normLoop` runs it with exactly that much
  fuel, which never runs out.
-/

/-- Fuel-driven floor base-2 logarithm; `log2floorAux fuel n` halves `n`
until it reaches `0` or `1`, consuming one unit of fuel per step. -/
def log2floorAux (fuel n : Nat) : Nat :=
  match fuel with
  | 0 => 0
  | fuel + 1 => if n ≤ 1 then 0 else log2floorAux fuel (n / 2) + 1

/-- Model of Python `int(math.log2(n))` for positive integers `n`:
the floor base-2 logarithm (`n` itself is always enough fuel). -/
def log2floor (n : Nat) : Nat := log2floorAux n n

/-- `exponent_bits = max(8, int(math.log2(precision)) + 2)`
(`CustomFloat._from_value` / `get_bit_allocation`). -/
def exponentBits (precision : Nat) : Nat := max 8 (log2floor precision + 2)

/-- `mantissa_bits = precision - exponent_bits - 1`
(`CustomFloat._from_value` / `get_bit_allocation`). -/
def mantissaBits (precision : Nat) : Nat := precision - exponentBits precision - 1

/-- `exponent_bias = (2 ** (exponent_bits - 1)) - 1`, as an integer since
it is subtracted from biased exponents. -/
def biasOf (precision : Nat) : Int := 2 ^ (exponentBits precision - 1) - 1

/-- `max_exp = (2 ** exponent_bits) - 1`, the all-ones biased exponent. -/
def maxExpNat (precision : Nat) : Nat := 2 ^ exponentBits precision - 1

/-- The `(sign, exponent, mantissa, precision)` tuple held by a Python
`CustomFloat`.  The kernels only ever store a non-negative sign,
exponent and precision, but the mantissa slot receives the raw result of
an integer subtraction, hence `Int`. -/
structure CustomFloat where
  sign : Nat
  exponent : Nat
  mantissa : Int
  precision_bits : Nat
  deriving DecidableEq, Repr

/-- Python `x >> k` on integers: flooring division by `2^k`. -/
def pyShr (x : Int) (k : Nat) : Int := Int.fdiv x (2 ^ k)

/-- Python `x << k` on integers. -/
def pyShl (x : Int) (k : Nat) : Int := x * 2 ^ k

/-- Python `x & ((1 << m) - 1)`: the low `m` bits of `x` in two's
complement, i.e. the non-negative residue of `x` modulo `2^m`. -/
def pyLowBits (x : Int) (m : Nat) : Int := Int.emod x (2 ^ m)

/-- Python `x.bit_length()`: `0` for `0`, otherwise one more than the
floor base-2 logarithm of `|x|`. -/
def pyBitLength (x : Int) : Nat :=
  if x.natAbs = 0 then 0 else log2floor x.natAbs + 1

/-- The zero-representation test `exp == 0 and mantissa == 0` used by all
four kernels. -/
def zeroRep (x : CustomFloat) : Prop := x.exponent = 0 ∧ x.mantissa = 0

instance (x : CustomFloat) : Decidable (zeroRep x) := by
  unfold zeroRep; infer_instance

/-- The representation invariants of the spec's data model:
`0 <= mantissaFraction < 2^mantissaBits` and
`0 <= biasedExponent <= maxBiasedExponent` (the lower bounds on the
exponent is automatic since the field is a `Nat`). -/
def validRep (x : CustomFloat) : Prop :=
  0 ≤ x.mantissa ∧ x.mantissa < 2 ^ mantissaBits x.precision_bits ∧
    x.exponent ≤ maxExpNat x.precision_bits

instance (x : CustomFloat) : Decidable (validRep x) := by
  unfold validRep; infer_instance

/-- A precision whose layout leaves a non-negative mantissa width, so
that `precision - exponent_bits - 1` is the same in `Nat` and in Python
arithmetic. -/
def validPrec (p : Nat) : Prop := exponentBits p + 1 ≤ p

instance (p : Nat) : Decidable (validPrec p) := by
  unfold validPrec; infer_instance

/-- Shared saturation tail of `multiply_basic`, `multiply_karat` and
`divide_basic`: overflow to infinity when the re-biased exponent reaches
`max_exp`, underflow to a (sign-carrying) zero when it is `<= 0`,
otherwise store the fields unchanged. -/
def saturateRes (rs : Nat) (reB : Int) (rm : Int) (p : Nat) : CustomFloat :=
  if (maxExpNat p : Int) ≤ reB then ⟨rs, maxExpNat p, 0, p⟩
  else if reB ≤ 0 then ⟨rs, 0, 0, p⟩
  else ⟨rs, reB.toNat, rm, p⟩

/-- Shared normalization tail of both multiplication strategies: starting
from `product = full_mant_a * full_mant_b` spread over
`total_bits = mant_bits_a + mant_bits_b` fractional bits, renormalize to
the result's mantissa width and saturate. -/
def mulFinish (rs : Nat) (re : Int) (product : Int) (tb : Nat) (p : Nat) :
    CustomFloat :=
  let mbr := mantissaBits p
  let step : Int × Int :=
    if (2 : Int) ^ (tb + 1) ≤ product then
      let s : Int := (tb : Int) + 1 - (mbr : Int)
      (if 0 ≤ s then pyShr product s.toNat else pyShl product (-s).toNat,
        re + 1)
    else
      let s : Int := (tb : Int) - (mbr : Int)
      (if 0 ≤ s then pyShr product s.toNat else pyShl product (-s).toNat,
        re)
  saturateRes rs (step.2 + biasOf p) (step.1 - 2 ^ mbr) p

/-- `Multiplication.multiply_basic` (src/algorithms/multiplication.py):
schoolbook product of the implicit-leading-one mantissas, each operand
read through its own bit layout. -/
def multiply_basic (a b : CustomFloat) (prec : Nat) : CustomFloat :=
  if (a.exponent = 0 ∧ a.mantissa = 0) ∨ (b.exponent = 0 ∧ b.mantissa = 0) then
    ⟨0, 0, 0, prec⟩
  else
    let mba := mantissaBits a.precision_bits
    let mbb := mantissaBits b.precision_bits
    let ua : Int := (a.exponent : Int) - biasOf a.precision_bits
    let ub : Int := (b.exponent : Int) - biasOf b.precision_bits
    let fa : Int := 2 ^ mba + a.mantissa
    let fb : Int := 2 ^ mbb + b.mantissa
    mulFinish (a.sign ^^^ b.sign) (ua + ub) (fa * fb) (mba + mbb) prec

/-- The single-level Karatsuba product of `Multiplication.multiply_karat`:
split both full mantissas at `m = max(mant_bits_a, mant_bits_b) / 2` and
recombine the three half products. -/
def karatProduct (fa fb : Int) (mba mbb : Nat) : Int :=
  let n := max mba mbb
  let m := n / 2
  let x1 := pyShr fa m
  let x0 := pyLowBits fa m
  let y1 := pyShr fb m
  let y0 := pyLowBits fb m
  let z2 := x1 * y1
  let z0 := x0 * y0
  let z1 := (x1 + x0) * (y1 + y0) - z2 - z0
  pyShl z2 (2 * m) + pyShl z1 m + z0

/-- `Multiplication.multiply_karat` (src/algorithms/multiplication.py):
identical to `multiply_basic` except that the mantissa product is
computed by `karatProduct`. -/
def multiply_karat (a b : CustomFloat) (prec : Nat) : CustomFloat :=
  if (a.exponent = 0 ∧ a.mantissa = 0) ∨ (b.exponent = 0 ∧ b.mantissa = 0) then
    ⟨0, 0, 0, prec⟩
  else
    let mba := mantissaBits a.precision_bits
    let mbb := mantissaBits b.precision_bits
    let ua : Int := (a.exponent : Int) - biasOf a.precision_bits
    let ub : Int := (b.exponent : Int) - biasOf b.precision_bits
    let fa : Int := 2 ^ mba + a.mantissa
    let fb : Int := 2 ^ mbb + b.mantissa
    mulFinish (a.sign ^^^ b.sign) (ua + ub) (karatProduct fa fb mba mbb)
      (mba + mbb) prec

/-- `Division.divide_basic` (src/algorithms/division.py): divisor zero
saturates to signed infinity (also for `0 / 0`), dividend zero yields the
positive zero, otherwise long division of the scaled full mantissas with
bit-length renormalization. -/
def divide_basic (a b : CustomFloat) (prec : Nat) : CustomFloat :=
  if b.exponent = 0 ∧ b.mantissa = 0 then
    ⟨a.sign ^^^ b.sign, maxExpNat prec, 0, prec⟩
  else if a.exponent = 0 ∧ a.mantissa = 0 then
    ⟨0, 0, 0, prec⟩
  else
    let mba := mantissaBits a.precision_bits
    let mbb := mantissaBits b.precision_bits
    let mbr := mantissaBits prec
    let ua : Int := (a.exponent : Int) - biasOf a.precision_bits
    let ub : Int := (b.exponent : Int) - biasOf b.precision_bits
    let fa : Int := 2 ^ mba + a.mantissa
    let fb : Int := 2 ^ mbb + b.mantissa
    let q := Int.fdiv (pyShl fa mbr) fb
    let bl := pyBitLength q
    let step : Int × Int :=
      if mbr < bl then (pyShr q (bl - mbr), ua - ub + (bl - mbr : Nat))
      else if bl < mbr then (pyShl q (mbr - bl), ua - ub - (mbr - bl : Nat))
      else (q, ua - ub)
    saturateRes (a.sign ^^^ b.sign) (step.2 + biasOf prec)
      (step.1 - 2 ^ mbr) prec

/-- Alignment stage of `Addition.add_basic`, parameterized by the layout
(`la` for the first operand, `lb` for the second) used to unbias the
exponents and rebuild the implicit-leading-one mantissas.  The code
passes the result precision for both; the spec's §4.2 step 2 wording
passes each operand's own precision.  Returns either the operand to be
passed through unchanged (guard-bit shortcut) or the aligned mantissa
pair together with the result's unbiased exponent. -/
def alignWith (la lb : Nat) (a b : CustomFloat) :
    CustomFloat ⊕ (Int × Int × Int) :=
  let rp := max a.precision_bits b.precision_bits
  let mb := mantissaBits rp
  let ua : Int := (a.exponent : Int) - biasOf la
  let ub : Int := (b.exponent : Int) - biasOf lb
  let d := ua - ub
  let fa : Int := 2 ^ mantissaBits la + a.mantissa
  let fb : Int := 2 ^ mantissaBits lb + b.mantissa
  if 0 < d then
    if ((mb : Int) + 5) ≤ d then Sum.inl a
    else Sum.inr (fa, pyShr fb d.toNat, ua)
  else if d < 0 then
    if ((mb : Int) + 5) ≤ -d then Sum.inl b
    else Sum.inr (pyShr fa (-d).toNat, fb, ub)
  else Sum.inr (fa, fb, ua)

/-- The alignment stage as `add_basic` actually performs it: the result
layout (derived from `max(prec_a, prec_b)`) is applied to both operands. -/
def alignMantissas (a b : CustomFloat) : CustomFloat ⊕ (Int × Int × Int) :=
  alignWith (max a.precision_bits b.precision_bits)
    (max a.precision_bits b.precision_bits) a b

/-- Mantissa combination of `add_basic` step 4: same sign adds the
aligned magnitudes, different signs subtract the smaller from the larger
and take the larger one's sign. -/
def combineStage (sa sb : Nat) (x y : Int) : Int × Nat :=
  if sa = sb then (x + y, sa)
  else if y ≤ x then (x - y, sa) else (y - x, sb)

/-- One-step pre-normalization: a carry out of the top bit shifts right
once and bumps the exponent. -/
def normPre (mb : Nat) (rm re : Int) : Int × Int :=
  if (2 : Int) ^ (mb + 1) ≤ rm then (pyShr rm 1, re + 1) else (rm, re)

/-- The `while result_mant < (1 << mantissa_bits) and
result_unbiased_exp > -exponent_bias` loop of `add_basic`, with explicit
fuel.  Each pass doubles the mantissa and decrements the exponent. -/
def normLoop (mb : Nat) (bias : Int) : Nat → Int → Int → Int × Int
  | 0, m, e => (m, e)
  | fuel + 1, m, e =>
    if m < (2 : Int) ^ mb ∧ -bias < e then
      normLoop mb bias fuel (pyShl m 1) (e - 1)
    else (m, e)

/-- Full normalization of `add_basic` steps 6: pre-shift then the left
normalization loop, run with enough fuel (`exp + bias + 1`) that the fuel
never runs out before the loop guard fails. -/
def normalizeStage (mb : Nat) (bias : Int) (rm re : Int) : Int × Int :=
  let p := normPre mb rm re
  normLoop mb bias ((p.2 + bias).toNat + 1) p.1 p.2

/-- Combination, normalization and saturation tail of `add_basic`
(steps 4-8).  The exact-zero path (`result_mant == 0`,
addition.py:69-70) and the underflow path (`result_exp <= 0`,
addition.py:84-85) both execute
`return CustomFloat._from_value(0.0, result_prec)` — but `_from_value`
is an instance method called here on the class, binding `self = 0.0`
and `value = result_prec` and leaving `precision` unfilled, so both
paths raise `TypeError` instead of returning.  They are modelled as
`none`; `some` is a normal return. -/
def addFinish (sa sb : Nat) (x y : Int) (re : Int) (rp : Nat) :
    Option CustomFloat :=
  let eb := exponentBits rp
  let mb := mantissaBits rp
  let bias := biasOf rp
  let rm := (combineStage sa sb x y).1
  let rs := (combineStage sa sb x y).2
  if rm = 0 then none
  else
    let n := normalizeStage mb bias rm re
    let m3 := n.1 - 2 ^ mb
    let reB := n.2 + bias
    if reB ≤ 0 then none
    else if ((2 : Int) ^ eb - 1) ≤ reB then some ⟨rs, 2 ^ eb - 1, 0, rp⟩
    else some ⟨rs, reB.toNat, m3, rp⟩

/-- `Addition.add_basic` (src/algorithms/addition.py): zero shortcuts
return the other operand unchanged; otherwise align (with the result
layout applied to both operands), combine, normalize and saturate at
`result_prec = max(prec_a, prec_b)`.  `none` models the `TypeError`
raised on the exact-cancellation and underflow paths (see
`addFinish`). -/
def add_basic (a b : CustomFloat) : Option CustomFloat :=
  if a.exponent = 0 ∧ a.mantissa = 0 then some b
  else if b.exponent = 0 ∧ b.mantissa = 0 then some a
  else
    match alignMantissas a b with
    | Sum.inl r => some r
    | Sum.inr (x, y, re) =>
      addFinish a.sign b.sign x y re (max a.precision_bits b.precision_bits)

/-- Spec-variant of `add_basic` for the refinement claim about §4.2
step 2: identical to `add_basic` except that each operand's unbiased
exponent and full mantissa are computed from that operand's own
`precision_bits` (`alignWith a.precision_bits b.precision_bits`). -/
def addOwnLayoutSpec (a b : CustomFloat) : Option CustomFloat :=
  if a.exponent = 0 ∧ a.mantissa = 0 then some b
  else if b.exponent = 0 ∧ b.mantissa = 0 then some a
  else
    match alignWith a.precision_bits b.precision_bits a b with
    | Sum.inl r => some r
    | Sum.inr (x, y, re) =>
      addFinish a.sign b.sign x y re (max a.precision_bits b.precision_bits)

/-- `CustomFloat._from_value(float(v), p)` for a natural number `v`.
The Python encoder works in native binary64 arithmetic, but for
`v < 2^53` every intermediate float step is exact (division by `2^e`,
subtraction of `1`, scaling by `2^mantissa_bits` are all exact power-of-2
operations), so truncation to an integer agrees with this exact
formula. -/
def from_value_nat (v : Nat) (p : Nat) : CustomFloat :=
  if v = 0 then ⟨0, 0, 0, p⟩
  else
    let eb := exponentBits p
    let mb := mantissaBits p
    let e := log2floor v
    let mant : Int := (v * 2 ^ mb / 2 ^ e : Nat) - 2 ^ mb
    let biased := e + (2 ^ (eb - 1) - 1)
    let maxE := 2 ^ eb - 2
    if maxE ≤ biased then ⟨0, maxE + 1, 0, p⟩
    else if biased = 0 then ⟨0, 0, 0, p⟩
    else ⟨0, biased, mant, p⟩

/-- `Elementary.is_negligible` (src/algorithms/elementary.py): the term
is exactly zero, or the biased-exponent gap to the running sum exceeds
`prec // 4`. -/
def is_negligible (term result : CustomFloat) (prec : Nat) : Bool :=
  if term.exponent = 0 ∧ term.mantissa = 0 then true
  else if (prec / 4 : Int) < (result.exponent : Int) - (term.exponent : Int)
    then true
  else false

/-- The `while True` loop of `Elementary.sin_taylor`, with explicit fuel
(the Python loop has no iteration cap; `none` models not having returned
within `fuel` iterations, or the `TypeError` propagating out of
`add_basic`). -/
def sinLoop (negx2 : CustomFloat) (p : Nat) :
    Nat → Nat → CustomFloat → CustomFloat → Option CustomFloat
  | 0, _, _, _ => none
  | fuel + 1, n, term, result =>
    let denom := from_value_nat (2 * n * (2 * n + 1)) p
    let t1 := multiply_basic term negx2 p
    let t2 := divide_basic t1 denom p
    match add_basic result t2 with
    | none => none
    | some r1 =>
      if is_negligible t2 r1 p then some r1
      else sinLoop negx2 p fuel (n + 1) t2 r1

/-- `Elementary.sin_taylor` (src/algorithms/elementary.py) with explicit
loop fuel: precompute `-(x*x)`, then iterate
`term * negx2 / ((2n)(2n+1))`, accumulating into `result`, until the
term is negligible. -/
def sin_taylor (fuel : Nat) (x : CustomFloat) : Option CustomFloat :=
  let p := x.precision_bits
  let x2 := multiply_basic x x p
  let negx2 : CustomFloat := ⟨x2.sign ^^^ 1, x2.exponent, x2.mantissa,
    x2.precision_bits⟩
  sinLoop negx2 p fuel 1 x x

/-- Exact-value reading of `CustomFloat.to_float` (src/core/float.py):
`0` for the zero representation, `none` for the inf/NaN exponent,
otherwise the finite value `(-1)^sign * (1 + mantissa / 2^mantissa_bits)
* 2^(exponent - bias)` as a rational (the Python routine computes this
in lossy native floats, for observation only). -/
def toFloatQ (x : CustomFloat) : Option ℚ :=
  if x.exponent = 0 ∧ x.mantissa = 0 then some 0
  else if x.exponent = maxExpNat x.precision_bits then none
  else
    let mb := mantissaBits x.precision_bits
    let mag : ℚ := (1 + (x.mantissa : ℚ) / 2 ^ mb) *
      (2 : ℚ) ^ ((x.exponent : Int) - biasOf x.precision_bits)
    some (if x.sign = 1 then -mag else mag)

/-! ### Basic facts about the flooring helpers -/

/-- Python `>>` by `k` is Euclidean division by `2^k` (the divisor is
positive, so flooring and Euclidean division agree). -/
lemma pyShr_eq_ediv (x : Int) (k : Nat) : pyShr x k = x / 2 ^ k :=
  Int.fdiv_eq_ediv x (by positivity)

lemma pyShr_nonneg {x : Int} (k : Nat) (h : 0 ≤ x) : 0 ≤ pyShr x k := by
  rw [pyShr_eq_ediv]; exact Int.ediv_nonneg h (by positivity)

lemma pyShr_le_self {x : Int} (k : Nat) (h : 0 ≤ x) : pyShr x k ≤ x := by
  rw [pyShr_eq_ediv]; exact Int.ediv_le_self _ h

lemma pyShr_lt {x B : Int} (k : Nat) (h : x < B * 2 ^ k) : pyShr x k < B := by
  rw [pyShr_eq_ediv]; exact (Int.ediv_lt_iff_lt_mul (by positivity)).mpr h

lemma le_pyShr {x A : Int} (k : Nat) (h : A * 2 ^ k ≤ x) : A ≤ pyShr x k := by
  rw [pyShr_eq_ediv]; exact (Int.le_ediv_iff_mul_le (by positivity)).mpr h

/-- Splitting an integer at bit `m` and recombining is the identity. -/
lemma pyShl_pyShr_add_lowBits (x : Int) (m : Nat) :
    pyShl (pyShr x m) m + pyLowBits x m = x := by
  rw [pyShr_eq_ediv]
  unfold pyShl pyLowBits
  exact Int.ediv_add_emod' x (2 ^ m)

/-! ### C1: the two multiplication strategies compute the same product -/

/-- The single-level Karatsuba recombination reproduces the plain
product, for arbitrary integer inputs. -/
lemma karatProduct_eq (fa fb : Int) (mba mbb : Nat) :
    karatProduct fa fb mba mbb = fa * fb := by
  have hdef : karatProduct fa fb mba mbb =
      pyShl (pyShr fa (max mba mbb / 2) * pyShr fb (max mba mbb / 2))
          (2 * (max mba mbb / 2)) +
        pyShl ((pyShr fa (max mba mbb / 2) + pyLowBits fa (max mba mbb / 2)) *
            (pyShr fb (max mba mbb / 2) + pyLowBits fb (max mba mbb / 2)) -
          pyShr fa (max mba mbb / 2) * pyShr fb (max mba mbb / 2) -
          pyLowBits fa (max mba mbb / 2) * pyLowBits fb (max mba mbb / 2))
          (max mba mbb / 2) +
        pyLowBits fa (max mba mbb / 2) * pyLowBits fb (max mba mbb / 2) := rfl
  rw [hdef]
  set m := max mba mbb / 2 with hm
  have ha := pyShl_pyShr_add_lowBits fa m
  have hb := pyShl_pyShr_add_lowBits fb m
  set x1 := pyShr fa m
  set x0 := pyLowBits fa m
  set y1 := pyShr fb m
  set y0 := pyLowBits fb m
  unfold pyShl at ha hb ⊢
  have h2m : (2 : Int) ^ (2 * m) = 2 ^ m * 2 ^ m := by
    rw [two_mul, pow_add]
  rw [h2m, ← ha, ← hb]
  ring

/-- Helper form of C1: `multiply_karat` agrees with `multiply_basic` on
all inputs. -/
lemma mul_karat_eq_basic_aux (a b : CustomFloat) (p : Nat) :
    multiply_karat a b p = multiply_basic a b p := by
  unfold multiply_karat multiply_basic
  split
  · rfl
  · simp only [karatProduct_eq]

/-- C1: for every pair of CustomFloat operands and every result
precision, the schoolbook multiplication `multiply_basic` and the
Karatsuba variant `multiply_karat` return results that are equal
field-for-field (same sign, biased exponent, mantissa and precision);
in particular this holds for operands satisfying the representation
invariants and valid precisions. -/
theorem multiply_basic_eq_multiply_karat (a b : CustomFloat) (p : Nat) :
    multiply_basic a b p = multiply_karat a b p :=
  (mul_karat_eq_basic_aux a b p).symm

/-! ### C7: division by zero saturates to signed infinity -/

/-- C7: whenever the divisor is the zero representation, `divide_basic`
returns the infinity representation at the requested precision with sign
`a.sign XOR b.sign`; the dividend is arbitrary, so this covers `0 / 0`
as well. -/
theorem divide_by_zero_infinity (a b : CustomFloat) (p : Nat)
    (he : b.exponent = 0) (hm : b.mantissa = 0) :
    divide_basic a b p = ⟨a.sign ^^^ b.sign, maxExpNat p, 0, p⟩ := by
  unfold divide_basic
  rw [if_pos ⟨he, hm⟩]

/-- Witness for C7 at a concrete input: `0 / 0` at precision 64 yields
infinity (biased exponent 255, mantissa 0), not NaN. -/
theorem divide_by_zero_infinity_witness :
    divide_basic ⟨1, 0, 0, 64⟩ ⟨0, 0, 0, 64⟩ 64 = ⟨1, 255, 0, 64⟩ ∧
    zeroRep ⟨1, 0, 0, 64⟩ :=
  ⟨divide_by_zero_infinity ⟨1, 0, 0, 64⟩ ⟨0, 0, 0, 64⟩ 64 rfl rfl, by decide⟩

/-! ### C10: zero operands give the sign-0 zero -/

/-- C10: if either multiplicand is the zero representation, both
multiplication strategies return the positive zero `(0, 0, 0, prec)`
regardless of the operand signs, and a zero dividend with a nonzero
divisor makes `divide_basic` return the positive zero as well. -/
theorem zero_operand_positive_zero (a b : CustomFloat) (p : Nat) :
    (zeroRep a ∨ zeroRep b →
      multiply_basic a b p = ⟨0, 0, 0, p⟩ ∧
      multiply_karat a b p = ⟨0, 0, 0, p⟩) ∧
    (zeroRep a → ¬ zeroRep b → divide_basic a b p = ⟨0, 0, 0, p⟩) := by
  constructor
  · intro h
    have h' : (a.exponent = 0 ∧ a.mantissa = 0) ∨
        (b.exponent = 0 ∧ b.mantissa = 0) := h
    constructor
    · unfold multiply_basic; rw [if_pos h']
    · unfold multiply_karat; rw [if_pos h']
  · intro ha hb
    have ha' : a.exponent = 0 ∧ a.mantissa = 0 := ha
    have hb' : ¬ (b.exponent = 0 ∧ b.mantissa = 0) := hb
    unfold divide_basic
    rw [if_neg hb', if_pos ha']

/-- Witness for C10: a negative zero times a negative finite value is
the sign-0 zero, and a negative zero divided by that value is too. -/
theorem zero_operand_positive_zero_witness :
    multiply_basic ⟨1, 0, 0, 64⟩ ⟨1, 129, 3, 64⟩ 64 = ⟨0, 0, 0, 64⟩ ∧
    multiply_karat ⟨1, 0, 0, 64⟩ ⟨1, 129, 3, 64⟩ 64 = ⟨0, 0, 0, 64⟩ ∧
    divide_basic ⟨1, 0, 0, 64⟩ ⟨1, 129, 3, 64⟩ 64 = ⟨0, 0, 0, 64⟩ :=
  ⟨((zero_operand_positive_zero ⟨1, 0, 0, 64⟩ ⟨1, 129, 3, 64⟩ 64).1
      (Or.inl (by decide))).1,
   ((zero_operand_positive_zero ⟨1, 0, 0, 64⟩ ⟨1, 129, 3, 64⟩ 64).1
      (Or.inl (by decide))).2,
   (zero_operand_positive_zero ⟨1, 0, 0, 64⟩ ⟨1, 129, 3, 64⟩ 64).2
      (by decide) (by decide)⟩

/-! ### C9: sine of the zero encoding -/

/-- C9: `sin_taylor` applied to the zero CustomFloat at precision 64
(which is exactly the encoding of `0.0` at precision 64) terminates
after its first iteration and returns a CustomFloat that decodes to
`0.0`. -/
theorem sin_taylor_zero :
    sin_taylor 1 ⟨0, 0, 0, 64⟩ = some ⟨0, 0, 0, 64⟩ ∧
    from_value_nat 0 64 = ⟨0, 0, 0, 64⟩ ∧
    toFloatQ ⟨0, 0, 0, 64⟩ = some 0 := by
  refine ⟨by decide, rfl, rfl⟩

/-! ### C3: the zero-producing paths of addition raise instead of
returning -/

/-- C3 (code bug): the claim and the spec say `add_basic` returns the
exact zero `(0, 0, 0, max(prec_a, prec_b))` in both zero-producing
situations — (1) two nonzero operands of opposite sign whose
representations have equal biased exponent and mantissa, so the aligned
mantissas cancel exactly, and (2) two nonzero operands whose combined
mantissa is nonzero but whose normalized, re-biased exponent is `<= 0`
(underflow).  The code does route exactly those situations to its
zero-return statements, but both statements call
`CustomFloat._from_value(0.0, result_prec)` (instance method on the
class, `precision` argument missing) and raise `TypeError`: the
function fails rather than returning.  `none` is the model of that
raise. -/
theorem add_zero_paths_raise :
    (∀ a b : CustomFloat, ¬ zeroRep a → ¬ zeroRep b → a.sign ≠ b.sign →
      a.exponent = b.exponent → a.mantissa = b.mantissa →
      add_basic a b = none) ∧
    (∀ (a b : CustomFloat) (x y re : Int), ¬ zeroRep a → ¬ zeroRep b →
      alignMantissas a b = Sum.inr (x, y, re) →
      (combineStage a.sign b.sign x y).1 ≠ 0 →
      (normalizeStage (mantissaBits (max a.precision_bits b.precision_bits))
          (biasOf (max a.precision_bits b.precision_bits))
          ((combineStage a.sign b.sign x y).1) re).2 +
        biasOf (max a.precision_bits b.precision_bits) ≤ 0 →
      add_basic a b = none) := by
  constructor
  · intro a b ha hb hs he hm
    have ha' : ¬ (a.exponent = 0 ∧ a.mantissa = 0) := ha
    have hb' : ¬ (b.exponent = 0 ∧ b.mantissa = 0) := hb
    have hd : (a.exponent : Int) -
        biasOf (max a.precision_bits b.precision_bits) -
        ((b.exponent : Int) -
          biasOf (max a.precision_bits b.precision_bits)) = 0 := by
      rw [he]; ring
    simp only [add_basic, alignMantissas, alignWith, if_neg ha', if_neg hb']
    rw [hd]
    simp only [lt_self_iff_false, if_false]
    rw [hm]
    simp only [addFinish, combineStage, if_neg hs, if_pos (le_refl _),
      sub_self, if_pos rfl, if_true]
  · intro a b x y re ha hb hal hrm hre
    have ha' : ¬ (a.exponent = 0 ∧ a.mantissa = 0) := ha
    have hb' : ¬ (b.exponent = 0 ∧ b.mantissa = 0) := hb
    simp only [add_basic, if_neg ha', if_neg hb', hal]
    simp only [addFinish, if_neg hrm, if_pos hre]

/-- Witness for C3 at the failing inputs: exact cancellation of
`x + (-x)` and an underflowing difference of two tiny values both raise
(model: `none`) instead of returning the exact zero. -/
theorem add_zero_paths_raise_witness :
    add_basic ⟨0, 130, 5, 64⟩ ⟨1, 130, 5, 64⟩ = none ∧
    add_basic ⟨0, 1, 0, 64⟩ ⟨1, 1, 1, 64⟩ = none :=
  ⟨add_zero_paths_raise.1 ⟨0, 130, 5, 64⟩ ⟨1, 130, 5, 64⟩
      (by decide) (by decide) (by decide) rfl rfl,
   add_zero_paths_raise.2 ⟨0, 1, 0, 64⟩ ⟨1, 1, 1, 64⟩
      (2 ^ 55) (2 ^ 55 + 1) (-126)
      (by decide) (by decide) (by decide) (by decide) (by decide)⟩

/-! ### C6: addition applies the result layout, not each operand's own -/

/-- Counterexample for C6: with operands of different precisions (64 and
128), `add_basic` unbiases both exponents with the result layout's bias
and rebuilds both mantissas at the result layout's width, so it differs
from the own-layout procedure described by the spec.  Here both operands
denote `2^3` under their own layouts, yet `add_basic` drops the first
operand entirely via the guard-bit shortcut. -/
theorem add_own_layout_cex :
    addOwnLayoutSpec ⟨0, 130, 0, 64⟩ ⟨0, 258, 0, 128⟩ ≠
      add_basic ⟨0, 130, 0, 64⟩ ⟨0, 258, 0, 128⟩ ∧
    add_basic ⟨0, 130, 0, 64⟩ ⟨0, 258, 0, 128⟩ = some ⟨0, 258, 0, 128⟩ ∧
    addOwnLayoutSpec ⟨0, 130, 0, 64⟩ ⟨0, 258, 0, 128⟩ =
      some ⟨0, 258, 2 ^ 55, 128⟩ := by
  refine ⟨?_, by decide, by decide⟩
  decide

/-- C6 amended: `add_basic` reads both operands through the single
layout derived from `result_prec = max(prec_a, prec_b)`; when the two
operands share the same `precision_bits` this coincides with each
operand's own layout, and `add_basic` agrees with the own-layout variant
`addOwnLayoutSpec` exactly in that case. -/
theorem add_own_layout_amended (a b : CustomFloat)
    (h : a.precision_bits = b.precision_bits) :
    add_basic a b = addOwnLayoutSpec a b := by
  unfold add_basic addOwnLayoutSpec alignMantissas
  rw [h, Nat.max_self]

/-- Witness for C6's amended claim at equal precisions. -/
theorem add_own_layout_amended_witness :
    (CustomFloat.mk 0 130 5 64).precision_bits =
      (CustomFloat.mk 0 131 9 64).precision_bits ∧
    add_basic ⟨0, 130, 5, 64⟩ ⟨0, 131, 9, 64⟩ =
      addOwnLayoutSpec ⟨0, 130, 5, 64⟩ ⟨0, 131, 9, 64⟩ :=
  ⟨rfl, add_own_layout_amended ⟨0, 130, 5, 64⟩ ⟨0, 131, 9, 64⟩ rfl⟩

/-! ### C5: the saturation threshold is maxBiasedExponent, not one below -/

/-- Counterexample for C5: multiplying `2^127` (biased exponent 254 at
precision 64) by `1.0` re-biases to exactly
`maxBiasedExponent - 1 = 254`, and `multiply_basic` returns it as a
finite value rather than saturating to infinity, refuting the
`>= maxBiasedExponent - 1` threshold claimed for the kernels. -/
theorem saturation_threshold_cex :
    multiply_basic ⟨0, 254, 0, 64⟩ ⟨0, 127, 0, 64⟩ 64 = ⟨0, 254, 0, 64⟩ ∧
    (254 : Nat) = maxExpNat 64 - 1 ∧
    (multiply_basic ⟨0, 254, 0, 64⟩ ⟨0, 127, 0, 64⟩ 64).exponent ≠
      maxExpNat 64 := by
  refine ⟨by decide, by decide, by decide⟩

/-- C5 amended: in all four kernels the overflow check fires exactly at
re-biased exponent `>= maxBiasedExponent` (the all-ones exponent), not
at `maxBiasedExponent - 1`.  Parts 1-2: `saturateRes` (the shared tail
of `multiply_basic`, `multiply_karat` and `divide_basic`) saturates to
signed infinity iff the re-biased exponent reaches `maxExpNat`, passing
every positive exponent strictly below it through as finite.
Parts 3-4: `addFinish` (the tail of `add_basic`) saturates at the same
`(1 << exponent_bits) - 1` threshold and returns a finite value for
every positive re-biased exponent strictly below it — in particular at
`maxBiasedExponent - 1`.  Part 5: a concrete `add_basic` call whose
normalized exponent re-biases to exactly `maxBiasedExponent - 1 = 254`
returns that finite value, not infinity. -/
theorem saturation_threshold_amended :
    (∀ (rs : Nat) (reB rm : Int) (p : Nat), (maxExpNat p : Int) ≤ reB →
      saturateRes rs reB rm p = ⟨rs, maxExpNat p, 0, p⟩) ∧
    (∀ (rs : Nat) (reB rm : Int) (p : Nat), 0 < reB →
      reB < (maxExpNat p : Int) →
      saturateRes rs reB rm p = ⟨rs, reB.toNat, rm, p⟩) ∧
    (∀ (sa sb : Nat) (x y re : Int) (rp : Nat),
      (combineStage sa sb x y).1 ≠ 0 →
      ((2 : Int) ^ exponentBits rp - 1) ≤
        (normalizeStage (mantissaBits rp) (biasOf rp)
            ((combineStage sa sb x y).1) re).2 + biasOf rp →
      addFinish sa sb x y re rp =
        some ⟨(combineStage sa sb x y).2, 2 ^ exponentBits rp - 1, 0, rp⟩) ∧
    (∀ (sa sb : Nat) (x y re : Int) (rp : Nat),
      (combineStage sa sb x y).1 ≠ 0 →
      0 < (normalizeStage (mantissaBits rp) (biasOf rp)
          ((combineStage sa sb x y).1) re).2 + biasOf rp →
      (normalizeStage (mantissaBits rp) (biasOf rp)
          ((combineStage sa sb x y).1) re).2 + biasOf rp <
        (2 : Int) ^ exponentBits rp - 1 →
      addFinish sa sb x y re rp =
        some ⟨(combineStage sa sb x y).2,
          ((normalizeStage (mantissaBits rp) (biasOf rp)
              ((combineStage sa sb x y).1) re).2 + biasOf rp).toNat,
          (normalizeStage (mantissaBits rp) (biasOf rp)
              ((combineStage sa sb x y).1) re).1 - 2 ^ mantissaBits rp,
          rp⟩) ∧
    (add_basic ⟨0, 253, 0, 64⟩ ⟨0, 253, 0, 64⟩ =
      some ⟨0, maxExpNat 64 - 1, 0, 64⟩) := by
  refine ⟨?_, ?_, ?_, ?_, by decide⟩
  · intro rs reB rm p h
    unfold saturateRes
    rw [if_pos h]
  · intro rs reB rm p h1 h2
    unfold saturateRes
    rw [if_neg (not_le.mpr h2), if_neg (not_le.mpr h1)]
  · intro sa sb x y re rp hrm hsat
    have hpow : (2 : Int) ^ (1 : Nat) ≤ 2 ^ exponentBits rp :=
      pow_le_pow_right₀ (by norm_num) (le_trans (by norm_num)
        (le_max_left 8 (log2floor rp + 2)))
    have hpos : ¬ ((normalizeStage (mantissaBits rp) (biasOf rp)
        ((combineStage sa sb x y).1) re).2 + biasOf rp ≤ 0) := by
      have : (2 : Int) ^ (1 : Nat) = 2 := by norm_num
      omega
    simp only [addFinish, if_neg hrm, if_neg hpos, if_pos hsat]
  · intro sa sb x y re rp hrm h1 h2
    simp only [addFinish, if_neg hrm, if_neg (not_le.mpr h1),
      if_neg (not_le.mpr h2)]

/-- Witness for C5's amended claim: overflow at 300 >= 255 yields
infinity, 254 stays finite, an addition whose normalized exponent
re-biases to 328 saturates to the all-ones exponent, and one that
re-biases to 254 = maxExp - 1 is returned finite. -/
theorem saturation_threshold_amended_witness :
    saturateRes 1 300 5 64 = ⟨1, 255, 0, 64⟩ ∧
    saturateRes 0 254 7 64 = ⟨0, 254, 7, 64⟩ ∧
    addFinish 0 0 (2 ^ 55) (2 ^ 55) 200 64 = some ⟨0, 255, 0, 64⟩ ∧
    addFinish 0 0 (2 ^ 55) (2 ^ 55) 126 64 = some ⟨0, 254, 0, 64⟩ :=
  ⟨saturation_threshold_amended.1 1 300 5 64 (by decide),
   saturation_threshold_amended.2.1 0 254 7 64 (by decide) (by decide),
   saturation_threshold_amended.2.2.1 0 0 (2 ^ 55) (2 ^ 55) 200 64
     (by decide) (by decide),
   saturation_threshold_amended.2.2.2.1 0 0 (2 ^ 55) (2 ^ 55) 126 64
     (by decide) (by decide) (by decide)⟩

/-! ### C4: addition commutes except when both operands are zero -/

/-- Counterexample for C4: on two zero representations `add_basic`
returns its second operand unchanged, so adding `+0` and `-0` in the two
orders gives results differing in the sign field. -/
theorem add_comm_cex :
    add_basic ⟨0, 0, 0, 64⟩ ⟨1, 0, 0, 64⟩ ≠
      add_basic ⟨1, 0, 0, 64⟩ ⟨0, 0, 0, 64⟩ := by
  decide

/-- The alignment stage maps a pass-through (shortcut) result to the
same pass-through result when the operands are swapped. -/
lemma align_swap_inl (a b r : CustomFloat)
    (h : alignMantissas a b = Sum.inl r) :
    alignMantissas b a = Sum.inl r := by
  simp only [alignMantissas, alignWith] at h ⊢
  rw [Nat.max_comm b.precision_bits a.precision_bits]
  split_ifs at h ⊢ <;>
    first
      | exact h
      | (exfalso; omega)

/-- The alignment stage swaps the aligned mantissa pair (and keeps the
result exponent) when the operands are swapped. -/
lemma align_swap_inr (a b : CustomFloat) (x y e : Int)
    (h : alignMantissas a b = Sum.inr (x, y, e)) :
    alignMantissas b a = Sum.inr (y, x, e) := by
  simp only [alignMantissas, alignWith] at h ⊢
  rw [Nat.max_comm b.precision_bits a.precision_bits]
  split_ifs at h ⊢ <;>
    first
      | (exfalso; omega)
      | (simp at h; done)
      | (simp only [Sum.inr.injEq, Prod.mk.injEq] at h ⊢
         obtain ⟨hx, hy, he⟩ := h
         refine ⟨?_, ?_, ?_⟩ <;>
           first
             | exact hx
             | exact hy
             | omega
             | (rw [← hy]; congr 1; omega)
             | (rw [← hx]; congr 1; omega))

/-- Combination is symmetric up to the degenerate case where both
differences vanish (there the tentative signs differ, but both combined
mantissas are `0`). -/
lemma combineStage_swap (sa sb : Nat) (x y : Int) :
    combineStage sa sb x y = combineStage sb sa y x ∨
    ((combineStage sa sb x y).1 = 0 ∧ (combineStage sb sa y x).1 = 0) := by
  unfold combineStage
  by_cases h : sa = sb
  · left
    rw [if_pos h, if_pos h.symm, h, Int.add_comm x y]
  · have h' : ¬ sb = sa := fun hh => h hh.symm
    rw [if_neg h, if_neg h']
    rcases lt_trichotomy x y with hlt | heq | hgt
    · left; rw [if_neg (by omega : ¬ y ≤ x), if_pos (by omega : x ≤ y)]
    · right
      subst heq
      rw [if_pos le_rfl, if_pos le_rfl]
      exact ⟨by simp, by simp⟩
    · left; rw [if_pos (by omega : y ≤ x), if_neg (by omega : ¬ x ≤ y)]

/-- The combine-normalize-saturate tail of `add_basic` is symmetric in
its operands: either both orders combine to the same `(mantissa, sign)`
pair, or both cancel to zero (and the differing tentative signs are
discarded by the exact-zero early return). -/
lemma addFinish_swap (sa sb : Nat) (x y re : Int) (rp : Nat) :
    addFinish sa sb x y re rp = addFinish sb sa y x re rp := by
  rcases combineStage_swap sa sb x y with h | ⟨h1, h2⟩
  · simp only [addFinish, h]
  · simp [addFinish, h1, h2]

/-- C4 amended: `add_basic(a, b)` and `add_basic(b, a)` have the same
outcome for all operands except when both are zero representations:
either both orders return the same CustomFloat bit-for-bit, or both
orders raise the `TypeError` of the exact-cancellation/underflow paths
(`none = none`).  On two zero representations the function returns its
(arbitrarily signed and sized) second operand unchanged, breaking
bit-for-bit agreement. -/
theorem add_comm_amended (a b : CustomFloat)
    (h : ¬ (zeroRep a ∧ zeroRep b)) :
    add_basic a b = add_basic b a := by
  by_cases ha : a.exponent = 0 ∧ a.mantissa = 0
  · by_cases hb : b.exponent = 0 ∧ b.mantissa = 0
    · exact absurd ⟨ha, hb⟩ h
    · simp only [add_basic, if_pos ha, if_neg hb]
  · by_cases hb : b.exponent = 0 ∧ b.mantissa = 0
    · simp only [add_basic, if_neg ha, if_pos hb]
    · simp only [add_basic, if_neg ha, if_neg hb]
      rcases hal : alignMantissas a b with r | ⟨x, y, e⟩
      · rw [align_swap_inl a b r hal]
      · rw [align_swap_inr a b x y e hal]
        show addFinish a.sign b.sign x y e (max a.precision_bits b.precision_bits) =
          addFinish b.sign a.sign y x e (max b.precision_bits a.precision_bits)
        rw [Nat.max_comm b.precision_bits a.precision_bits]
        exact addFinish_swap a.sign b.sign x y e _

/-- Witness for C4's amended claim: a nonzero/zero pair commutes. -/
theorem add_comm_amended_witness :
    ¬ (zeroRep ⟨0, 129, 0, 64⟩ ∧ zeroRep ⟨0, 0, 0, 64⟩) ∧
    add_basic ⟨0, 129, 0, 64⟩ ⟨0, 0, 0, 64⟩ =
      add_basic ⟨0, 0, 0, 64⟩ ⟨0, 129, 0, 64⟩ :=
  ⟨by decide, add_comm_amended ⟨0, 129, 0, 64⟩ ⟨0, 0, 0, 64⟩ (by decide)⟩

/-! ### C2 groundwork: the layout functions and `Nat.log` -/

/-- With enough fuel, the fuel-driven floor logarithm agrees with
`Nat.log 2`. -/
lemma log2floorAux_eq (fuel n : Nat) (h : n ≤ fuel) :
    log2floorAux fuel n = Nat.log 2 n := by
  induction fuel generalizing n with
  | zero =>
    have hn : n = 0 := by omega
    subst hn
    simp [log2floorAux, Nat.log_zero_right]
  | succ f ih =>
    unfold log2floorAux
    by_cases h1 : n ≤ 1
    · interval_cases n
      · simp [Nat.log_zero_right]
      · simp [Nat.log_one_right]
    · rw [if_neg h1, ih (n / 2) (by omega)]
      have h2 : 2 ≤ n := by omega
      have h3 := Nat.log_pos (b := 2) one_lt_two h2
      rw [Nat.log_div_base]
      omega

/-- `log2floor` is the floor base-2 logarithm. -/
lemma log2floor_eq_log (n : Nat) : log2floor n = Nat.log 2 n :=
  log2floorAux_eq n n le_rfl

/-- The floor logarithm grows by at most one per increment. -/
lemma log2floor_succ_le (n : Nat) : log2floor (n + 1) ≤ log2floor n + 1 := by
  rw [log2floor_eq_log, log2floor_eq_log]
  rcases Nat.eq_zero_or_pos n with h | h
  · subst h
    simp [Nat.log_one_right]
  · calc Nat.log 2 (n + 1) ≤ Nat.log 2 (n * 2) :=
          Nat.log_mono_right (by omega)
    _ = Nat.log 2 n + 1 := Nat.log_mul_base one_lt_two (by omega)

lemma log2floor_mono {p q : Nat} (h : p ≤ q) : log2floor p ≤ log2floor q := by
  rw [log2floor_eq_log, log2floor_eq_log]
  exact Nat.log_mono_right h

lemma exponentBits_mono {p q : Nat} (h : p ≤ q) :
    exponentBits p ≤ exponentBits q := by
  unfold exponentBits
  have := log2floor_mono h
  omega

lemma exponentBits_succ_le (n : Nat) :
    exponentBits (n + 1) ≤ exponentBits n + 1 := by
  unfold exponentBits
  have := log2floor_succ_le n
  omega

/-- The mantissa width is monotone in the precision: adding one bit of
precision adds at most one exponent bit. -/
lemma mantissaBits_mono {p q : Nat} (h : p ≤ q) :
    mantissaBits p ≤ mantissaBits q := by
  induction q with
  | zero =>
    have : p = 0 := by omega
    subst this; exact le_rfl
  | succ n ih =>
    rcases Nat.lt_or_ge p (n + 1) with h1 | h1
    · have h2 := ih (by omega)
      have h3 := exponentBits_succ_le n
      have h4 := exponentBits_mono (le_of_lt h1)
      unfold mantissaBits at h2 ⊢
      omega
    · have : p = n + 1 := by omega
      subst this; exact le_rfl

lemma exponentBits_ge_eight (p : Nat) : 8 ≤ exponentBits p :=
  le_max_left _ _

/-! ### C2 groundwork: saturation preserves the bounds -/

/-- If the pre-saturation mantissa satisfies the representation bounds,
the saturated result is a valid representation. -/
lemma saturateRes_valid (rs : Nat) (reB rm : Int) (p : Nat)
    (h0 : 0 ≤ rm) (h1 : rm < 2 ^ mantissaBits p) :
    validRep (saturateRes rs reB rm p) := by
  unfold saturateRes validRep
  split_ifs with hA hB
  · exact ⟨le_rfl, by positivity, le_rfl⟩
  · exact ⟨le_rfl, by positivity, Nat.zero_le _⟩
  · refine ⟨h0, h1, ?_⟩
    have hlt : reB < (maxExpNat p : Int) := by omega
    show reB.toNat ≤ maxExpNat p
    omega

/-- Whatever the mantissa, the saturated result's exponent is in range,
and its mantissa is below the width bound as soon as the input is. -/
lemma saturateRes_bounds (rs : Nat) (reB rm : Int) (p : Nat)
    (h1 : rm < 2 ^ mantissaBits p) :
    (saturateRes rs reB rm p).exponent ≤ maxExpNat p ∧
    (saturateRes rs reB rm p).mantissa < 2 ^ mantissaBits p := by
  unfold saturateRes
  split_ifs with hA hB
  · exact ⟨le_rfl, by positivity⟩
  · exact ⟨Nat.zero_le _, by positivity⟩
  · have hlt : reB < (maxExpNat p : Int) := by omega
    constructor
    · show reB.toNat ≤ maxExpNat p
      omega
    · exact h1

/-! ### C2 groundwork: multiplication keeps the mantissa in range -/

/-- The renormalization shift of `mulFinish`: a value occupying exactly
the bit range `[2^lo, 2^(lo+1))` lands in `[2^mbr, 2^(mbr+1))` after the
shift by `lo - mbr` (right when non-negative, left otherwise). -/
lemma normShift_bounds (x s : Int) (lo mbr : Nat)
    (hs : s = (lo : Int) - (mbr : Int))
    (h1 : 2 ^ lo ≤ x) (h2 : x < 2 ^ (lo + 1)) :
    2 ^ mbr ≤ (if 0 ≤ s then pyShr x s.toNat else pyShl x (-s).toNat) ∧
      (if 0 ≤ s then pyShr x s.toNat else pyShl x (-s).toNat) <
        2 ^ (mbr + 1) := by
  split_ifs with h
  · have hmbr : mbr ≤ lo := by omega
    have hk : s.toNat = lo - mbr := by omega
    constructor
    · apply le_pyShr
      have he : (2 : Int) ^ mbr * 2 ^ s.toNat = 2 ^ lo := by
        rw [← pow_add]; congr 1; omega
      rw [he]; exact h1
    · apply pyShr_lt
      have he : (2 : Int) ^ (mbr + 1) * 2 ^ s.toNat = 2 ^ (lo + 1) := by
        rw [← pow_add]; congr 1; omega
      rw [he]; exact h2
  · have hlo : lo ≤ mbr := by omega
    have hk : (-s).toNat = mbr - lo := by omega
    unfold pyShl
    constructor
    · calc (2 : Int) ^ mbr = 2 ^ lo * 2 ^ (-s).toNat := by
            rw [← pow_add]; congr 1; omega
        _ ≤ x * 2 ^ (-s).toNat :=
            mul_le_mul_of_nonneg_right h1 (by positivity)
    · calc x * 2 ^ (-s).toNat < 2 ^ (lo + 1) * 2 ^ (-s).toNat :=
            mul_lt_mul_of_pos_right h2 (by positivity)
        _ = 2 ^ (mbr + 1) := by rw [← pow_add]; congr 1; omega

/-- If the full-mantissa product occupies the expected range
`[2^tb, 2^(tb+2))`, the normalized and saturated multiplication result
is a valid representation. -/
lemma mulFinish_valid (rs : Nat) (re product : Int) (tb : Nat) (p : Nat)
    (hlo : 2 ^ tb ≤ product) (hhi : product < 2 ^ (tb + 2)) :
    validRep (mulFinish rs re product tb p) := by
  have hpow := pow_succ (2 : Int) (mantissaBits p)
  simp only [mulFinish]
  by_cases hc : (2 : Int) ^ (tb + 1) ≤ product
  · rw [if_pos hc]
    have hb := normShift_bounds product
      ((tb : Int) + 1 - (mantissaBits p : Int)) (tb + 1) (mantissaBits p)
      (by push_cast; ring) hc hhi
    dsimp only
    exact saturateRes_valid _ _ _ _ (by omega) (by omega)
  · rw [if_neg hc]
    have hb := normShift_bounds product
      ((tb : Int) - (mantissaBits p : Int)) tb (mantissaBits p)
      rfl hlo (by omega)
    dsimp only
    exact saturateRes_valid _ _ _ _ (by omega) (by omega)

/-- `multiply_basic` preserves the representation invariants. -/
lemma multiply_basic_valid (a b : CustomFloat) (p : Nat)
    (ha : validRep a) (hb : validRep b) :
    validRep (multiply_basic a b p) := by
  obtain ⟨ha0, ha1, -⟩ := ha
  obtain ⟨hb0, hb1, -⟩ := hb
  unfold multiply_basic
  split_ifs with h
  · exact ⟨le_rfl, by positivity, Nat.zero_le _⟩
  · apply mulFinish_valid
    · have := mul_le_mul
        (le_add_of_nonneg_right ha0 :
          (2 : Int) ^ mantissaBits a.precision_bits ≤
            2 ^ mantissaBits a.precision_bits + a.mantissa)
        (le_add_of_nonneg_right hb0 :
          (2 : Int) ^ mantissaBits b.precision_bits ≤
            2 ^ mantissaBits b.precision_bits + b.mantissa)
        (by positivity) (by positivity)
      calc (2 : Int) ^ (mantissaBits a.precision_bits +
            mantissaBits b.precision_bits)
          = 2 ^ mantissaBits a.precision_bits *
            2 ^ mantissaBits b.precision_bits := by rw [pow_add]
        _ ≤ _ := this
    · have h1 : (2 : Int) ^ mantissaBits a.precision_bits + a.mantissa <
          2 ^ (mantissaBits a.precision_bits + 1) := by
        have := pow_succ (2 : Int) (mantissaBits a.precision_bits)
        omega
      have h2 : (2 : Int) ^ mantissaBits b.precision_bits + b.mantissa <
          2 ^ (mantissaBits b.precision_bits + 1) := by
        have := pow_succ (2 : Int) (mantissaBits b.precision_bits)
        omega
      calc (2 ^ mantissaBits a.precision_bits + a.mantissa) *
            (2 ^ mantissaBits b.precision_bits + b.mantissa)
          < 2 ^ (mantissaBits a.precision_bits + 1) *
            2 ^ (mantissaBits b.precision_bits + 1) :=
            mul_lt_mul'' h1 h2 (by positivity) (by positivity)
        _ = 2 ^ (mantissaBits a.precision_bits +
            mantissaBits b.precision_bits + 2) := by
            rw [← pow_add]; congr 1; omega

/-- `multiply_karat` preserves the representation invariants. -/
lemma multiply_karat_valid (a b : CustomFloat) (p : Nat)
    (ha : validRep a) (hb : validRep b) :
    validRep (multiply_karat a b p) := by
  rw [mul_karat_eq_basic_aux]
  exact multiply_basic_valid a b p ha hb

/-! ### C2 groundwork: addition keeps the mantissa in range -/

lemma maxExpNat_cast (p : Nat) :
    ((maxExpNat p : Nat) : Int) = 2 ^ exponentBits p - 1 := by
  unfold maxExpNat
  have h : (1 : Nat) ≤ 2 ^ exponentBits p := Nat.one_le_two_pow
  rw [Nat.cast_sub h, Nat.cast_pow, Nat.cast_ofNat, Nat.cast_one]

/-- The left-normalization loop keeps the mantissa non-negative and
below `2^(mb+1)`: a pass only doubles mantissas below `2^mb`. -/
lemma normLoop_bounds (mb : Nat) (bias : Int) (fuel : Nat) (m e : Int)
    (h0 : 0 ≤ m) (h1 : m < 2 ^ (mb + 1)) :
    0 ≤ (normLoop mb bias fuel m e).1 ∧
      (normLoop mb bias fuel m e).1 < 2 ^ (mb + 1) := by
  induction fuel generalizing m e with
  | zero => exact ⟨h0, h1⟩
  | succ f ih =>
    unfold normLoop
    split_ifs with hg
    · have hshl : pyShl m 1 = m * 2 := by unfold pyShl; norm_num
      have hsucc := pow_succ (2 : Int) mb
      apply ih
      · omega
      · have := hg.1
        omega
    · exact ⟨h0, h1⟩

/-- Run with more fuel than `exp + bias`, the loop only stops because
its guard failed: afterwards the mantissa has reached `2^mb` or the
exponent has reached the representable floor. -/
lemma normLoop_post (mb : Nat) (bias : Int) (fuel : Nat) (m e : Int)
    (hf : (e + bias).toNat < fuel) :
    ¬ ((normLoop mb bias fuel m e).1 < 2 ^ mb ∧
       -bias < (normLoop mb bias fuel m e).2) := by
  induction fuel generalizing m e with
  | zero => omega
  | succ f ih =>
    unfold normLoop
    split_ifs with hg
    · apply ih
      obtain ⟨-, h2⟩ := hg
      omega
    · exact hg

/-- A shortcut result of the alignment stage is one of the operands. -/
lemma alignMantissas_inl (a b r : CustomFloat)
    (h : alignMantissas a b = Sum.inl r) : r = a ∨ r = b := by
  simp only [alignMantissas, alignWith] at h
  split_ifs at h <;>
    first
      | (simp only [Sum.inl.injEq] at h; exact Or.inl h.symm)
      | (simp only [Sum.inl.injEq] at h; exact Or.inr h.symm)

/-- For operands whose mantissas satisfy their own representation
bounds, both aligned mantissas lie in `[0, 2^(mb+1))` for the result
layout's width `mb` (the monotonicity of `mantissaBits` carries each
operand's own bound over to the wider result layout). -/
lemma alignMantissas_inr_bounds (a b : CustomFloat) (x y e : Int)
    (ha0 : 0 ≤ a.mantissa)
    (ha1 : a.mantissa < 2 ^ mantissaBits a.precision_bits)
    (hb0 : 0 ≤ b.mantissa)
    (hb1 : b.mantissa < 2 ^ mantissaBits b.precision_bits)
    (h : alignMantissas a b = Sum.inr (x, y, e)) :
    (0 ≤ x ∧
      x < 2 ^ (mantissaBits (max a.precision_bits b.precision_bits) + 1)) ∧
    (0 ≤ y ∧
      y < 2 ^ (mantissaBits (max a.precision_bits b.precision_bits) + 1)) := by
  have hma : a.mantissa <
      2 ^ mantissaBits (max a.precision_bits b.precision_bits) :=
    lt_of_lt_of_le ha1 (pow_le_pow_right₀ one_le_two
      (mantissaBits_mono (le_max_left _ _)))
  have hmb : b.mantissa <
      2 ^ mantissaBits (max a.precision_bits b.precision_bits) :=
    lt_of_lt_of_le hb1 (pow_le_pow_right₀ one_le_two
      (mantissaBits_mono (le_max_right _ _)))
  have hp : (0 : Int) <
      2 ^ mantissaBits (max a.precision_bits b.precision_bits) := by
    positivity
  have hsucc := pow_succ (2 : Int)
    (mantissaBits (max a.precision_bits b.precision_bits))
  simp only [alignMantissas, alignWith] at h
  split_ifs at h <;>
    first
      | (simp only [Sum.inr.injEq, Prod.mk.injEq] at h
         obtain ⟨h1, h2, -⟩ := h
         rw [← h1, ← h2]
         refine ⟨⟨?_, ?_⟩, ⟨?_, ?_⟩⟩ <;>
           first
             | omega
             | exact pyShr_nonneg _ (by omega)
             | exact lt_of_le_of_lt (pyShr_le_self _ (by omega)) (by omega))

/-- Whenever the combine-normalize-saturate tail of `add_basic` returns
a value (rather than raising on the cancellation/underflow paths), that
value is a valid representation, provided the aligned mantissas are
within the result layout's range. -/
lemma addFinish_valid (sa sb : Nat) (x y re : Int) (rp : Nat)
    (r : CustomFloat)
    (hx : 0 ≤ x) (hx2 : x < 2 ^ (mantissaBits rp + 1))
    (hy : 0 ≤ y) (hy2 : y < 2 ^ (mantissaBits rp + 1))
    (h : addFinish sa sb x y re rp = some r) :
    validRep r := by
  have hp : (0 : Int) < 2 ^ mantissaBits rp := by positivity
  have hs1 := pow_succ (2 : Int) (mantissaBits rp)
  have hcast := maxExpNat_cast rp
  have hcomb : 0 ≤ (combineStage sa sb x y).1 ∧
      (combineStage sa sb x y).1 < 2 ^ (mantissaBits rp + 1) * 2 := by
    unfold combineStage
    split_ifs <;> dsimp only <;> constructor <;> omega
  have hpre : 0 ≤ (normPre (mantissaBits rp) ((combineStage sa sb x y).1) re).1 ∧
      (normPre (mantissaBits rp) ((combineStage sa sb x y).1) re).1 <
        2 ^ (mantissaBits rp + 1) := by
    unfold normPre
    split_ifs with hq
    · dsimp only
      constructor
      · exact pyShr_nonneg _ (by omega)
      · apply pyShr_lt
        have h21 : (2 : Int) ^ (1 : Nat) = 2 := by norm_num
        rw [h21]
        exact hcomb.2
    · exact ⟨hcomb.1, by omega⟩
  have hn : normalizeStage (mantissaBits rp) (biasOf rp)
      ((combineStage sa sb x y).1) re =
      normLoop (mantissaBits rp) (biasOf rp)
        (((normPre (mantissaBits rp) ((combineStage sa sb x y).1) re).2 +
          biasOf rp).toNat + 1)
        ((normPre (mantissaBits rp) ((combineStage sa sb x y).1) re).1)
        ((normPre (mantissaBits rp) ((combineStage sa sb x y).1) re).2) := rfl
  have hub := normLoop_bounds (mantissaBits rp) (biasOf rp)
    (((normPre (mantissaBits rp) ((combineStage sa sb x y).1) re).2 +
      biasOf rp).toNat + 1)
    ((normPre (mantissaBits rp) ((combineStage sa sb x y).1) re).1)
    ((normPre (mantissaBits rp) ((combineStage sa sb x y).1) re).2)
    hpre.1 hpre.2
  have hpost := normLoop_post (mantissaBits rp) (biasOf rp)
    (((normPre (mantissaBits rp) ((combineStage sa sb x y).1) re).2 +
      biasOf rp).toNat + 1)
    ((normPre (mantissaBits rp) ((combineStage sa sb x y).1) re).1)
    ((normPre (mantissaBits rp) ((combineStage sa sb x y).1) re).2)
    (Nat.lt_succ_self _)
  simp only [addFinish, hn] at h
  split_ifs at h with h1 h2 h3
  · injection h with h
    subst h
    exact ⟨le_rfl, by positivity, le_of_eq rfl⟩
  · injection h with h
    subst h
    refine ⟨?_, ?_, ?_⟩
    · show (0 : Int) ≤ _ - 2 ^ mantissaBits rp
      omega
    · show _ - (2 : Int) ^ mantissaBits rp < 2 ^ mantissaBits rp
      omega
    · show (_ + biasOf rp).toNat ≤ maxExpNat rp
      omega

/-- Every value `add_basic` actually returns satisfies the
representation invariants (relative to that value's own precision
field); on the raising paths nothing is returned. -/
lemma add_basic_valid (a b r : CustomFloat)
    (ha : validRep a) (hb : validRep b) (h : add_basic a b = some r) :
    validRep r := by
  unfold add_basic at h
  split_ifs at h with h1 h2
  · injection h with h
    subst h
    exact hb
  · injection h with h
    subst h
    exact ha
  · rcases hal : alignMantissas a b with r' | ⟨x, y, e⟩ <;> rw [hal] at h
    · injection h with h
      subst h
      rcases alignMantissas_inl a b r' hal with hh | hh <;> subst hh
      · exact ha
      · exact hb
    · have hbd := alignMantissas_inr_bounds a b x y e
        ha.1 ha.2.1 hb.1 hb.2.1 hal
      exact addFinish_valid a.sign b.sign x y e _ r
        hbd.1.1 hbd.1.2 hbd.2.1 hbd.2.2 h

/-! ### C2 groundwork: division bounds -/

/-- Any non-negative integer is below `2` to its Python bit length. -/
lemma lt_two_pow_pyBitLength (q : Int) (hq : 0 ≤ q) :
    q < 2 ^ pyBitLength q := by
  unfold pyBitLength
  split_ifs with h
  · have hq0 : q = 0 := by omega
    rw [hq0]; norm_num
  · rw [log2floor_eq_log]
    have h1 : q.natAbs < 2 ^ (Nat.log 2 q.natAbs + 1) :=
      Nat.lt_pow_succ_log_self one_lt_two q.natAbs
    have h2 : q = (q.natAbs : Int) := (Int.natAbs_of_nonneg hq).symm
    rw [h2]
    exact_mod_cast h1

/-- `divide_basic` keeps the biased exponent in range and the mantissa
below the width bound; it does NOT keep the mantissa non-negative (its
quotient is renormalized to bit length `mant_bits_result`, one short of
the implicit-one position, so stripping the implicit bit dips below
zero). -/
lemma divide_basic_partial (a b : CustomFloat) (p : Nat)
    (ha : validRep a) (hb : validRep b) :
    (divide_basic a b p).exponent ≤ maxExpNat p ∧
    (divide_basic a b p).mantissa < 2 ^ mantissaBits p := by
  obtain ⟨ha0, ha1, -⟩ := ha
  obtain ⟨hb0, hb1, -⟩ := hb
  have hpa : (0 : Int) < 2 ^ mantissaBits a.precision_bits := by positivity
  have hpb : (0 : Int) < 2 ^ mantissaBits b.precision_bits := by positivity
  have hpr : (0 : Int) < 2 ^ mantissaBits p := by positivity
  simp only [divide_basic]
  set q : Int := Int.fdiv
    (pyShl (2 ^ mantissaBits a.precision_bits + a.mantissa) (mantissaBits p))
    (2 ^ mantissaBits b.precision_bits + b.mantissa) with hqdef
  have hq0 : (0 : Int) ≤ q := by
    rw [hqdef]
    exact Int.fdiv_nonneg
      (by unfold pyShl; exact mul_nonneg (by omega) (by positivity))
      (by omega)
  have hqlt := lt_two_pow_pyBitLength q hq0
  split_ifs with h1 h2 h3 h4
  · exact ⟨le_rfl, by positivity⟩
  · exact ⟨Nat.zero_le _, by positivity⟩
  · dsimp only
    apply saturateRes_bounds
    have hshr : pyShr q (pyBitLength q - mantissaBits p) <
        2 ^ mantissaBits p := by
      apply pyShr_lt
      calc q < 2 ^ pyBitLength q := hqlt
        _ = 2 ^ mantissaBits p * 2 ^ (pyBitLength q - mantissaBits p) := by
            rw [← pow_add]; congr 1; omega
    omega
  · dsimp only
    apply saturateRes_bounds
    have hshl : pyShl q (mantissaBits p - pyBitLength q) <
        2 ^ mantissaBits p := by
      unfold pyShl
      calc q * 2 ^ (mantissaBits p - pyBitLength q)
          < 2 ^ pyBitLength q * 2 ^ (mantissaBits p - pyBitLength q) :=
            mul_lt_mul_of_pos_right hqlt (by positivity)
        _ = 2 ^ mantissaBits p := by rw [← pow_add]; congr 1; omega
    omega
  · dsimp only
    apply saturateRes_bounds
    have hbl : pyBitLength q = mantissaBits p := by omega
    rw [hbl] at hqlt
    omega

/-! ### C2: the invariants hold for add and multiply, not for divide -/

/-- Counterexample for C2: dividing `0.125` by `0.25` at precision 64
(two perfectly valid operands) produces `(0, 127, -2^54, 64)` — the
stored mantissa is negative, violating `0 <= mantissaFraction`. -/
theorem divide_invariant_cex :
    validRep ⟨0, 124, 0, 64⟩ ∧ validRep ⟨0, 125, 0, 64⟩ ∧ validPrec 64 ∧
    (divide_basic ⟨0, 124, 0, 64⟩ ⟨0, 125, 0, 64⟩ 64).mantissa < 0 ∧
    ¬ validRep (divide_basic ⟨0, 124, 0, 64⟩ ⟨0, 125, 0, 64⟩ 64) := by
  refine ⟨by decide, by decide, by decide, by decide, by decide⟩

/-- C2 amended: for operands satisfying the representation invariants
(and valid precisions), every CustomFloat that `add_basic` actually
returns — it raises `TypeError` on the exact-cancellation and underflow
paths instead of returning — and every result of `multiply_basic` and
`multiply_karat` satisfies `0 <= mantissaFraction < 2^mantissaBits` and
`0 <= biasedExponent <= maxBiasedExponent` for the result's own
precision; `divide_basic` guarantees the exponent range and the upper
mantissa bound, but its mantissa can be negative. -/
theorem ops_preserve_invariants_amended :
    (∀ a b r : CustomFloat, validPrec a.precision_bits →
      validPrec b.precision_bits → validRep a → validRep b →
      add_basic a b = some r → validRep r) ∧
    (∀ (a b : CustomFloat) (p : Nat), validPrec p → validRep a →
      validRep b → validRep (multiply_basic a b p)) ∧
    (∀ (a b : CustomFloat) (p : Nat), validPrec p → validRep a →
      validRep b → validRep (multiply_karat a b p)) ∧
    (∀ (a b : CustomFloat) (p : Nat), validPrec p → validRep a →
      validRep b → (divide_basic a b p).exponent ≤ maxExpNat p ∧
        (divide_basic a b p).mantissa < 2 ^ mantissaBits p) :=
  ⟨fun a b r _ _ ha hb h => add_basic_valid a b r ha hb h,
   fun a b p _ ha hb => multiply_basic_valid a b p ha hb,
   fun a b p _ ha hb => multiply_karat_valid a b p ha hb,
   fun a b p _ ha hb => divide_basic_partial a b p ha hb⟩

/-- Witness for C2's amended claim at concrete valid operands (the
addition instance returns `some (1, 130, 14, 64)`, which is valid). -/
theorem ops_preserve_invariants_amended_witness :
    validRep ⟨1, 130, 14, 64⟩ ∧
    validRep (multiply_basic ⟨0, 130, 5, 64⟩ ⟨1, 131, 9, 64⟩ 64) ∧
    validRep (multiply_karat ⟨0, 130, 5, 64⟩ ⟨1, 131, 9, 64⟩ 64) ∧
    ((divide_basic ⟨0, 130, 5, 64⟩ ⟨1, 131, 9, 64⟩ 64).exponent ≤
        maxExpNat 64 ∧
      (divide_basic ⟨0, 130, 5, 64⟩ ⟨1, 131, 9, 64⟩ 64).mantissa <
        2 ^ mantissaBits 64) :=
  ⟨ops_preserve_invariants_amended.1 ⟨0, 130, 5, 64⟩ ⟨1, 131, 9, 64⟩
      ⟨1, 130, 14, 64⟩ (by decide) (by decide) (by decide) (by decide)
      (by decide),
   ops_preserve_invariants_amended.2.1 ⟨0, 130, 5, 64⟩ ⟨1, 131, 9, 64⟩
      64 (by decide) (by decide) (by decide),
   ops_preserve_invariants_amended.2.2.1 ⟨0, 130, 5, 64⟩ ⟨1, 131, 9, 64⟩
      64 (by decide) (by decide) (by decide),
   ops_preserve_invariants_amended.2.2.2 ⟨0, 130, 5, 64⟩ ⟨1, 131, 9, 64⟩
      64 (by decide) (by decide) (by decide)⟩
